import Mathlib

/-!
Verification development for the WMT machine-translation example
(`examples/wmt/train.py`) and its beam-search decoding core.

The repository source contains `train.py`; the `decode` module it calls
(`decode.flat_batch_beam_expand`, `decode.beam_search`) is not part of the
source tree, so those operations are modelled from the design document's
description of the FlatIndexer / BeamSearchDriver components.  Functions
that do live in `train.py` (`predict_step`, `pad_examples`, the prediction
post-processing loop in `main`) are embedded directly from the source.

Numeric conventions: cumulative log-probabilities are embedded as rationals
(`ℚ`), with `WithBot ℚ` supplying the `-infinity` used to break the symmetry
of the initial beams.  The transcendental length penalty `length ^ alpha` is
kept opaque as a caller-supplied function `pow : Nat → ℚ → ℚ`, applied as
`pow length alpha`; no claim below depends on its concrete values.
-/

namespace WMT

/-- Modelled from the spec: `decode.flat_batch_beam_expand` (the FlatIndexer
`expand` contract, §4.1) — each batch element of the leading axis is
replicated `beamWidth` times contiguously in place (never tiled).  The
missing code is the `decode` module, which is not in the source tree. -/
def flat_batch_beam_expand {α : Type} (xs : List α) (beamWidth : Nat) : List α :=
  xs.flatMap (fun e => List.replicate beamWidth e)

/-- From `train.py` `pad_examples`: expand a batch to the desired size by
repeating the last row (`np.concatenate([x, np.tile(x[-1], (batch_pad, 1))])`).
`none` models the two numpy failure cases: indexing `x[-1]` on an empty
array (IndexError) and `np.tile` with a negative repetition count
(ValueError, when `desired_batch_size < x.shape[0]`). -/
def pad_examples (x : List (List Int)) (desired_batch_size : Nat) :
    Option (List (List Int)) :=
  if h : x = [] then none
  else if x.length ≤ desired_batch_size then
    some (x ++ List.replicate (desired_batch_size - x.length) (x.getLast h))
  else none

/-- From `train.py` `main` (the translation loop): iterate over the first
`cur_pred_batch_size` predicted token rows, detokenize each one, and
substitute the fixed placeholder string when detokenization fails. -/
def process_predictions (dec : List Int → Except String String)
    (predicted : List (List Int)) (cur_pred_batch_size : Nat) : List String :=
  (predicted.take cur_pred_batch_size).map fun s =>
    match dec s with
    | .ok t => t
    | .error _ => "Wir haben technische Schwierigkeiten."

/-! ### The beam-search decoding core

`decode.beam_search` is not part of the source tree; the definitions below
are modelled from the spec's BeamState / StepOracle / BeamSearchDriver
description (§3, §4.3, §6).  The scoring call is embedded pointwise per
`(batch, beam)` slot: the spec's single batched StepOracle invocation is a
vectorized map of a pure per-slot function, and each slot's cache row
travels with the slot, which bakes in the spec's central
BeamState-row/cache-row alignment invariant. -/

/-- Modelled from the spec: the StepOracle contract (§6) restricted to one
flat slot — from the slot's current token and cache row, produce the
next-token log-probabilities over the vocabulary and the updated cache row.
(The conversion of model logits to log-probabilities happens inside the
oracle here; the driver only adds the returned values to cumulative
scores.) -/
def Oracle (κ : Type) : Type := Nat → κ → List ℚ × κ

/-- Modelled from the spec: one BeamState slot (§3) — the token buffer of
fixed length `max_decode_len + 1` (index 0 the reserved start token), the
current sequence length, the cumulative log-probability score (`⊥` is the
`-infinity` used to break initial-beam symmetry), the finished flag, and the
slot's cache row. -/
structure Slot (κ : Type) where
  seq : List Nat
  len : Nat
  score : WithBot ℚ
  finished : Bool
  cache : κ
  deriving DecidableEq, Repr

/-- Modelled from the spec: the length-normalized score
`score / length ^ alpha` (§4.3), with the opaque penalty `length ^ alpha`
supplied as `lp length`. -/
def normKey {κ : Type} (lp : Nat → ℚ) (s : Slot κ) : WithBot ℚ :=
  s.score.map (fun q => q / lp s.len)

/-- The last written token of a slot (the input fed to the StepOracle). -/
def lastTok {κ : Type} (s : Slot κ) : Nat := s.seq.getD (s.len - 1) 0

/-- Modelled from the spec, STEP item 5 (§4.3): the slot obtained by
appending token `v` to a live slot — write `v` at the current length, add
its log-probability to the cumulative score, mark finished (without growing
the length) when `v` is `eos`, and install the oracle's updated cache
row. -/
def extendSlot {κ : Type} (oracle : Oracle κ) (eos : Nat) (s : Slot κ)
    (v : Nat) : Slot κ :=
  { seq := s.seq.set s.len v
  , len := if v = eos then s.len else s.len + 1
  , score := s.score + (((oracle (lastTok s) s.cache).1.getD v 0 : ℚ) : WithBot ℚ)
  , finished := v == eos
  , cache := (oracle (lastTok s) s.cache).2 }

/-- Modelled from the spec, STEP items 1–3 (§4.3): the score candidates one
slot contributes, each paired with its selection key.  A finished slot is
frozen and contributes a single passive candidate keyed by its normalized
score; a live slot contributes one extension per vocabulary token, keyed by
the new cumulative (unnormalized) score. -/
def slotCands {κ : Type} (oracle : Oracle κ) (vocab eos : Nat) (lp : Nat → ℚ)
    (s : Slot κ) : List (WithBot ℚ × Slot κ) :=
  if s.finished then [(normKey lp s, s)]
  else
    (List.range vocab).map fun v =>
      (s.score + (((oracle (lastTok s) s.cache).1.getD v 0 : ℚ) : WithBot ℚ),
       extendSlot oracle eos s v)

/-- Extract a candidate with the maximal key (earliest such candidate on
ties, the stable tie-break) together with the remaining candidates in their
original order. -/
def best1 {α : Type} :
    List (WithBot ℚ × α) → Option ((WithBot ℚ × α) × List (WithBot ℚ × α))
  | [] => none
  | x :: xs =>
    match best1 xs with
    | none => some (x, [])
    | some (y, rest) => if x.1 < y.1 then some (y, x :: rest) else some (x, xs)

/-- Modelled from the spec, STEP item 4 (§4.3): select the top `k`
candidates by key (repeated extraction of the best remaining candidate). -/
def topK {α : Type} :
    Nat → List (WithBot ℚ × α) → List (WithBot ℚ × α)
  | 0, _ => []
  | k + 1, l =>
    match best1 l with
    | none => []
    | some (x, rest) => x :: topK k rest

/-- Modelled from the spec, one STEP of the BeamSearchDriver for one batch
element (§4.3, items 1–6): gather every slot's candidates and keep the top
`k` by selection key. -/
def stepBeams {κ : Type} (oracle : Oracle κ) (vocab eos k : Nat) (lp : Nat → ℚ)
    (slots : List (Slot κ)) : List (Slot κ) :=
  (topK k (slots.flatMap (slotCands oracle vocab eos lp))).map Prod.snd

/-- Modelled from the spec: the STEP loop (§4.3, item 7) — up to
`max_decode_len` steps, stopping early once every slot is finished. -/
def runBeams {κ : Type} (oracle : Oracle κ) (vocab eos k : Nat) (lp : Nat → ℚ) :
    Nat → List (Slot κ) → List (Slot κ)
  | 0, slots => slots
  | n + 1, slots =>
    if slots.all (·.finished) then slots
    else runBeams oracle vocab eos k lp n (stepBeams oracle vocab eos k lp slots)

/-- Modelled from the spec: INIT (§4.3) — `k` slots per batch element, each
holding the reserved start token in a zero-padded buffer of length
`max_decode_len + 1`, length 1, not finished; beam 0 starts at score 0 and
the other beams at `-infinity` to break symmetry. -/
def initSlots {κ : Type} (c : κ) (k maxLen : Nat) : List (Slot κ) :=
  (List.range k).map fun b =>
    { seq := List.replicate (maxLen + 1) 0
    , len := 1
    , score := if b = 0 then ((0 : ℚ) : WithBot ℚ) else ⊥
    , finished := false
    , cache := c }

/-- Insert into a list sorted ascending by `key`, keeping earlier elements
first on ties. -/
def insertAsc {α : Type} (key : α → WithBot ℚ) (x : α) : List α → List α
  | [] => [x]
  | y :: ys => if key x ≤ key y then x :: y :: ys else y :: insertAsc key x ys

/-- Stable insertion sort ascending by `key`. -/
def sortAsc {α : Type} (key : α → WithBot ℚ) : List α → List α
  | [] => []
  | x :: xs => insertAsc key x (sortAsc key xs)

/-- Modelled from the spec: the full BeamSearchDriver run for one batch
element — INIT, the STEP loop, then TERMINATE, which sorts the `k`
hypotheses ascending by final normalized score (best last). -/
def beamSearchOne {κ : Type} (oracle : Oracle κ) (c : κ)
    (vocab k eos maxLen : Nat) (lp : Nat → ℚ) : List (Slot κ) :=
  sortAsc (normKey lp) (runBeams oracle vocab eos k lp maxLen (initSlots c k maxLen))

/-- Modelled from the spec: `decode.beam_search` — run the driver
independently on every batch element (selection is per batch element; the
flat `batch * beam` layout is the contiguous expansion of claim C1, so flat
slot `i * beam_size + j` carries batch element `i`).  `alpha` enters only
through the opaque penalty `pow length alpha`. -/
def beam_search {σ κ : Type} (pow : Nat → ℚ → ℚ) (oracleFor : σ → Oracle κ)
    (cacheFor : σ → κ) (inputs : List σ) (vocab beam_size : Nat) (alpha : ℚ)
    (eos_token max_decode_len : Nat) : List (List (Slot κ)) :=
  inputs.map fun x =>
    beamSearchOne (oracleFor x) (cacheFor x) vocab beam_size eos_token
      max_decode_len (fun n => pow n alpha)

/-- From `train.py` `predict_step`: run beam search with `beam_size = 4`
(fixed inside the function), `alpha = 0.6`, `eos_token = 1` and
`max_decode_len = max_predict_length`; the per-element scoring function is
built from the encoded input and the source padding mask `inputs > 0`, and
the function returns, per batch element, the last (highest normalized
score) beam with the leading dummy 0 token dropped
(`beam_seqs[:, -1, 1:]`). -/
def predict_step {κ E : Type} (pow : Nat → ℚ → ℚ) (encode : List Int → E)
    (decoder : E → List Bool → Oracle κ) (cacheFor : List Int → κ)
    (vocab max_predict_length : Nat) (inputs : List (List Int)) :
    List (List Nat) :=
  let beam_size := 4
  let beam_seqs := beam_search pow
    (fun x => decoder (encode x) (x.map fun t => decide (0 < t)))
    cacheFor inputs vocab beam_size (0.6 : ℚ) 1 max_predict_length
  beam_seqs.map fun beams =>
    match beams.getLast? with
    | some s => s.seq.drop 1
    | none => []

/-! ### An independent greedy decoder (for claim C8) -/

/-- State of the greedy reference decoder. -/
structure GreedyState (κ : Type) where
  seq : List Nat
  len : Nat
  finished : Bool
  cache : κ
  deriving DecidableEq, Repr

/-- Index of the first maximal element of a list of scores (0 on the empty
list). -/
def argmaxIdx : List ℚ → Nat
  | [] => 0
  | x :: xs =>
    if xs = [] then 0
    else if x < xs.getD (argmaxIdx xs) 0 then argmaxIdx xs + 1 else 0

/-- The highest-probability token (lowest index on ties) for current token
`t` and cache row `c`, over a vocabulary of `vocab` tokens. -/
def argmaxTok {κ : Type} (oracle : Oracle κ) (vocab : Nat) (t : Nat) (c : κ) :
    Nat :=
  argmaxIdx ((List.range vocab).map fun u => (oracle t c).1.getD u 0)

/-- One step of greedy argmax decoding: if not finished, score the last
token and append the single highest-probability token (lowest index on
ties), terminating on `eos`. -/
def greedyStep {κ : Type} (oracle : Oracle κ) (vocab eos : Nat)
    (g : GreedyState κ) : GreedyState κ :=
  if g.finished then g
  else
    let v := argmaxTok oracle vocab (g.seq.getD (g.len - 1) 0) g.cache
    { seq := g.seq.set g.len v
    , len := if v = eos then g.len else g.len + 1
    , finished := v == eos
    , cache := (oracle (g.seq.getD (g.len - 1) 0) g.cache).2 }

/-- Iterate greedy decoding for a fixed number of steps. -/
def greedyRun {κ : Type} (oracle : Oracle κ) (vocab eos : Nat) :
    Nat → GreedyState κ → GreedyState κ
  | 0, g => g
  | n + 1, g => greedyRun oracle vocab eos n (greedyStep oracle vocab eos g)

/-- Initial greedy state: start token in a zero-padded buffer. -/
def greedyInit {κ : Type} (c : κ) (maxLen : Nat) : GreedyState κ :=
  { seq := List.replicate (maxLen + 1) 0, len := 1, finished := false, cache := c }

/-- The sequence produced by greedy argmax decoding. -/
def greedy_decode {κ : Type} (oracle : Oracle κ) (c : κ)
    (vocab eos maxLen : Nat) : List Nat :=
  (greedyRun oracle vocab eos maxLen (greedyInit c maxLen)).seq

/-! ### Test fixtures used by the concrete witnesses -/

/-- A 3-token test oracle: favors token 2 until the last token is 2, then
favors the eos token 1. -/
def testOracle : Oracle Unit := fun t _ =>
  (if t = 2 then [(-5 : ℚ), -1, -2] else [(-4 : ℚ), -3, -1], ())

/-- A uniform 3-token test oracle. -/
def flatOracle : Oracle Unit := fun _ _ => ([(-1 : ℚ), -1, -1], ())

/-- A concrete stand-in for the opaque `length ^ alpha` evaluator. -/
def testPow : Nat → ℚ → ℚ := fun n a => (n : ℚ) * a

/-! ### Helper lemmas about `best1`, `topK` and the sort -/

theorem best1_spec {α : Type} (x : WithBot ℚ × α) (xs : List (WithBot ℚ × α)) :
    ∃ y rest, best1 (x :: xs) = some (y, rest) ∧ rest.length = xs.length
      ∧ y ∈ x :: xs ∧ (∀ z ∈ rest, z ∈ x :: xs) := by
  induction xs generalizing x with
  | nil => exact ⟨x, [], rfl, rfl, by simp, by simp⟩
  | cons b bs ih =>
    obtain ⟨y, rest, hb, hlen, hymem, hrest⟩ := ih b
    have hunfold : best1 (x :: b :: bs) =
        if x.1 < y.1 then some (y, x :: rest) else some (x, b :: bs) := by
      rw [best1, hb]
    by_cases hcmp : x.1 < y.1
    · refine ⟨y, x :: rest, by rw [hunfold, if_pos hcmp], by simp [hlen], ?_, ?_⟩
      · exact List.mem_cons_of_mem x hymem
      · intro z hz
        rcases List.mem_cons.mp hz with rfl | hz'
        · exact List.mem_cons_self _ _
        · exact List.mem_cons_of_mem x (hrest z hz')
    · exact ⟨x, b :: bs, by rw [hunfold, if_neg hcmp], rfl, List.mem_cons_self _ _,
        fun z hz => List.mem_cons_of_mem x hz⟩

theorem topK_length {α : Type} :
    ∀ (k : Nat) (l : List (WithBot ℚ × α)), (topK k l).length = min k l.length := by
  intro k
  induction k with
  | zero => intro l; simp [topK]
  | succ k ih =>
    intro l
    cases l with
    | nil => simp [topK, best1]
    | cons x xs =>
      obtain ⟨y, rest, hb, hlen, _, _⟩ := best1_spec x xs
      simp only [topK, hb, List.length_cons, ih rest, hlen]
      omega

theorem topK_subset {α : Type} :
    ∀ (k : Nat) (l : List (WithBot ℚ × α)), ∀ z ∈ topK k l, z ∈ l := by
  intro k
  induction k with
  | zero => intro l z hz; simp [topK] at hz
  | succ k ih =>
    intro l z hz
    cases l with
    | nil => simp [topK, best1] at hz
    | cons x xs =>
      obtain ⟨y, rest, hb, _, hymem, hrest⟩ := best1_spec x xs
      rw [topK, hb] at hz
      rcases List.mem_cons.mp hz with rfl | hz'
      · exact hymem
      · exact hrest z (ih rest z hz')

theorem mem_insertAsc {α : Type} (key : α → WithBot ℚ) (x : α) :
    ∀ (l : List α) (b : α), b ∈ insertAsc key x l ↔ b = x ∨ b ∈ l := by
  intro l
  induction l with
  | nil => intro b; simp [insertAsc]
  | cons y ys ih =>
    intro b
    unfold insertAsc
    by_cases hc : key x ≤ key y
    · rw [if_pos hc]
      simp [List.mem_cons]
    · rw [if_neg hc]
      simp only [List.mem_cons, ih b]
      tauto

theorem length_insertAsc {α : Type} (key : α → WithBot ℚ) (x : α) :
    ∀ (l : List α), (insertAsc key x l).length = l.length + 1 := by
  intro l
  induction l with
  | nil => rfl
  | cons y ys ih =>
    unfold insertAsc
    by_cases hc : key x ≤ key y
    · rw [if_pos hc]; rfl
    · rw [if_neg hc]; simp [ih]

theorem sorted_insertAsc {α : Type} (key : α → WithBot ℚ) (x : α) :
    ∀ (l : List α), List.Sorted (fun a b => key a ≤ key b) l →
      List.Sorted (fun a b => key a ≤ key b) (insertAsc key x l) := by
  intro l
  induction l with
  | nil => intro _; simp [insertAsc]
  | cons y ys ih =>
    intro h
    rw [List.sorted_cons] at h
    obtain ⟨hy, hys⟩ := h
    unfold insertAsc
    by_cases hc : key x ≤ key y
    · rw [if_pos hc, List.sorted_cons]
      refine ⟨?_, List.sorted_cons.mpr ⟨hy, hys⟩⟩
      intro b hb
      rcases List.mem_cons.mp hb with rfl | hb'
      · exact hc
      · exact le_trans hc (hy b hb')
    · rw [if_neg hc, List.sorted_cons]
      refine ⟨?_, ih hys⟩
      intro b hb
      rcases (mem_insertAsc key x ys b).mp hb with rfl | hb'
      · exact le_of_not_le hc
      · exact hy b hb'

theorem sorted_sortAsc {α : Type} (key : α → WithBot ℚ) :
    ∀ (l : List α), List.Sorted (fun a b => key a ≤ key b) (sortAsc key l) := by
  intro l
  induction l with
  | nil => simp [sortAsc]
  | cons x xs ih => exact sorted_insertAsc key x _ ih

theorem length_sortAsc {α : Type} (key : α → WithBot ℚ) :
    ∀ (l : List α), (sortAsc key l).length = l.length := by
  intro l
  induction l with
  | nil => rfl
  | cons x xs ih => simp [sortAsc, length_insertAsc, ih]

theorem mem_sortAsc {α : Type} (key : α → WithBot ℚ) :
    ∀ (l : List α) (b : α), b ∈ sortAsc key l ↔ b ∈ l := by
  intro l
  induction l with
  | nil => intro b; simp [sortAsc]
  | cons x xs ih =>
    intro b
    simp [sortAsc, mem_insertAsc, ih b, List.mem_cons]

theorem sorted_key_le_getLast {α : Type} (key : α → WithBot ℚ) :
    ∀ (l : List α), List.Sorted (fun a b => key a ≤ key b) l →
      ∀ x ∈ l, ∀ y, l.getLast? = some y → key x ≤ key y := by
  intro l
  induction l with
  | nil => intro _ x hx; simp at hx
  | cons a as ih =>
    intro hs x hx y hy
    rw [List.sorted_cons] at hs
    obtain ⟨ha, has⟩ := hs
    cases as with
    | nil =>
      rcases List.mem_singleton.mp hx with rfl
      have : x = y := by simpa using hy
      rw [this]
    | cons b bs =>
      have hne : b :: bs ≠ [] := List.cons_ne_nil _ _
      have hy' : (b :: bs).getLast? = some y := by
        rwa [List.getLast?_cons_cons] at hy
      have hy2 : y = (b :: bs).getLast hne := by
        rw [List.getLast?_eq_getLast _ hne] at hy'
        exact (Option.some.inj hy').symm
      rcases List.mem_cons.mp hx with rfl | hx'
      · rw [hy2]
        exact ha _ (List.getLast_mem hne)
      · exact ih has x hx' y hy'

/-! ### Structural lemmas about the step and the run -/

theorem one_le_length_slotCands {κ : Type} (oracle : Oracle κ) (vocab eos : Nat)
    (lp : Nat → ℚ) (s : Slot κ) (hv : 1 ≤ vocab) :
    1 ≤ (slotCands oracle vocab eos lp s).length := by
  unfold slotCands
  split
  · simp
  · simpa using hv

theorem slotCands_seq_length {κ : Type} (oracle : Oracle κ) (vocab eos : Nat)
    (lp : Nat → ℚ) (s : Slot κ) :
    ∀ c ∈ slotCands oracle vocab eos lp s, c.2.seq.length = s.seq.length := by
  intro c hc
  unfold slotCands at hc
  split at hc
  · rcases List.mem_singleton.mp hc with rfl
    rfl
  · simp only [List.mem_map, List.mem_range] at hc
    obtain ⟨v, _, rfl⟩ := hc
    simp [extendSlot, List.length_set]

theorem slotCands_score_le {κ : Type} (oracle : Oracle κ) (vocab eos : Nat)
    (lp : Nat → ℚ) (s : Slot κ)
    (hnp : ∀ t c q, q ∈ (oracle t c).1 → q ≤ 0) :
    ∀ c ∈ slotCands oracle vocab eos lp s,
      c.2.score ≤ s.score ∧ s.len ≤ c.2.len := by
  intro c hc
  unfold slotCands at hc
  split at hc
  · rcases List.mem_singleton.mp hc with rfl
    exact ⟨le_refl _, le_refl _⟩
  · simp only [List.mem_map, List.mem_range] at hc
    obtain ⟨v, _, rfl⟩ := hc
    constructor
    · show s.score + ((oracle (lastTok s) s.cache).1.getD v 0 : ℚ) ≤ s.score
      have hval : (oracle (lastTok s) s.cache).1.getD v 0 ≤ 0 := by
        by_cases hlt : v < (oracle (lastTok s) s.cache).1.length
        · refine hnp (lastTok s) s.cache _ ?_
          rw [List.getD_eq_getElem _ _ hlt]
          exact List.getElem_mem hlt
        · rw [List.getD_eq_default _ _ (le_of_not_lt hlt)]
      generalize (oracle (lastTok s) s.cache).1.getD v 0 = q0 at hval ⊢
      rcases s.score with _ | a
      · exact le_of_eq (WithBot.bot_add _)
      · show ((a : ℚ) : WithBot ℚ) + (q0 : WithBot ℚ) ≤ ((a : ℚ) : WithBot ℚ)
        rw [← WithBot.coe_add]
        exact WithBot.coe_le_coe.mpr (by linarith)
    · show s.len ≤ (if v = eos then s.len else s.len + 1)
      split <;> omega

theorem length_le_length_flatMap_slotCands {κ : Type} (oracle : Oracle κ)
    (vocab eos : Nat) (lp : Nat → ℚ) (hv : 1 ≤ vocab) :
    ∀ (slots : List (Slot κ)),
      slots.length ≤ (slots.flatMap (slotCands oracle vocab eos lp)).length := by
  intro slots
  induction slots with
  | nil => simp
  | cons s ss ih =>
    rw [List.flatMap_cons, List.length_append]
    have h1 := one_le_length_slotCands oracle vocab eos lp s hv
    simp only [List.length_cons]
    omega

theorem stepBeams_length {κ : Type} (oracle : Oracle κ) (vocab eos k : Nat)
    (lp : Nat → ℚ) (slots : List (Slot κ)) (hv : 1 ≤ vocab)
    (hlen : slots.length = k) :
    (stepBeams oracle vocab eos k lp slots).length = k := by
  have hflat := length_le_length_flatMap_slotCands oracle vocab eos lp hv slots
  unfold stepBeams
  rw [List.length_map, topK_length]
  omega

theorem stepBeams_mem {κ : Type} (oracle : Oracle κ) (vocab eos k : Nat)
    (lp : Nat → ℚ) (slots : List (Slot κ)) :
    ∀ s' ∈ stepBeams oracle vocab eos k lp slots,
      ∃ s ∈ slots, ∃ c ∈ slotCands oracle vocab eos lp s, c.2 = s' := by
  intro s' hs'
  unfold stepBeams at hs'
  rw [List.mem_map] at hs'
  obtain ⟨c, hc, rfl⟩ := hs'
  have hmem := topK_subset _ _ c hc
  rw [List.mem_flatMap] at hmem
  obtain ⟨s, hsmem, hcmem⟩ := hmem
  exact ⟨s, hsmem, c, hcmem, rfl⟩

theorem runBeams_length {κ : Type} (oracle : Oracle κ) (vocab eos k : Nat)
    (lp : Nat → ℚ) (hv : 1 ≤ vocab) :
    ∀ (fuel : Nat) (slots : List (Slot κ)), slots.length = k →
      (runBeams oracle vocab eos k lp fuel slots).length = k := by
  intro fuel
  induction fuel with
  | zero => intro slots h; exact h
  | succ n ih =>
    intro slots h
    rw [runBeams]
    split
    · exact h
    · exact ih _ (stepBeams_length oracle vocab eos k lp slots hv h)

theorem runBeams_seq_length {κ : Type} (oracle : Oracle κ) (vocab eos k : Nat)
    (lp : Nat → ℚ) (L : Nat) :
    ∀ (fuel : Nat) (slots : List (Slot κ)), (∀ s ∈ slots, s.seq.length = L) →
      ∀ s' ∈ runBeams oracle vocab eos k lp fuel slots, s'.seq.length = L := by
  intro fuel
  induction fuel with
  | zero => intro slots h; exact h
  | succ n ih =>
    intro slots h
    rw [runBeams]
    split
    · exact h
    · refine ih _ ?_
      intro s' hs'
      obtain ⟨s, hsmem, c, hcmem, rfl⟩ :=
        stepBeams_mem oracle vocab eos k lp slots s' hs'
      rw [slotCands_seq_length oracle vocab eos lp s c hcmem]
      exact h s hsmem

theorem initSlots_length {κ : Type} (c : κ) (k maxLen : Nat) :
    (initSlots c k maxLen).length = k := by
  simp [initSlots]

theorem initSlots_seq_length {κ : Type} (c : κ) (k maxLen : Nat) :
    ∀ s ∈ initSlots c k maxLen, s.seq.length = maxLen + 1 := by
  intro s hs
  unfold initSlots at hs
  simp only [List.mem_map, List.mem_range] at hs
  obtain ⟨b, _, rfl⟩ := hs
  simp

theorem beamSearchOne_length {κ : Type} (oracle : Oracle κ) (c : κ)
    (vocab k eos maxLen : Nat) (lp : Nat → ℚ) (hv : 1 ≤ vocab) :
    (beamSearchOne oracle c vocab k eos maxLen lp).length = k := by
  unfold beamSearchOne
  rw [length_sortAsc]
  exact runBeams_length oracle vocab eos k lp hv maxLen _ (initSlots_length c k maxLen)

theorem beamSearchOne_seq_length {κ : Type} (oracle : Oracle κ) (c : κ)
    (vocab k eos maxLen : Nat) (lp : Nat → ℚ) :
    ∀ s ∈ beamSearchOne oracle c vocab k eos maxLen lp,
      s.seq.length = maxLen + 1 := by
  intro s hs
  unfold beamSearchOne at hs
  rw [mem_sortAsc] at hs
  exact runBeams_seq_length oracle vocab eos k lp (maxLen + 1) maxLen _
    (initSlots_seq_length c k maxLen) s hs

theorem stepBeams_score_le {κ : Type} (oracle : Oracle κ) (vocab eos k : Nat)
    (lp : Nat → ℚ) (slots : List (Slot κ))
    (hnp : ∀ t c q, q ∈ (oracle t c).1 → q ≤ 0) :
    ∀ s' ∈ stepBeams oracle vocab eos k lp slots,
      ∃ s ∈ slots, s'.score ≤ s.score ∧ s.len ≤ s'.len := by
  intro s' hs'
  obtain ⟨s, hsmem, c, hcmem, rfl⟩ := stepBeams_mem oracle vocab eos k lp slots s' hs'
  obtain ⟨hsc, hlen⟩ := slotCands_score_le oracle vocab eos lp s hnp c hcmem
  exact ⟨s, hsmem, hsc, hlen⟩

theorem runBeams_score_le {κ : Type} (oracle : Oracle κ) (vocab eos k : Nat)
    (lp : Nat → ℚ) (hnp : ∀ t c q, q ∈ (oracle t c).1 → q ≤ 0) :
    ∀ (fuel : Nat) (slots : List (Slot κ)),
      ∀ s' ∈ runBeams oracle vocab eos k lp fuel slots,
        ∃ s ∈ slots, s'.score ≤ s.score := by
  intro fuel
  induction fuel with
  | zero => intro slots s' hs'; exact ⟨s', hs', le_refl _⟩
  | succ n ih =>
    intro slots s' hs'
    rw [runBeams] at hs'
    split at hs'
    · exact ⟨s', hs', le_refl _⟩
    · obtain ⟨s₁, hs₁mem, hs₁⟩ := ih _ s' hs'
      obtain ⟨s, hsmem, hsc, _⟩ :=
        stepBeams_score_le oracle vocab eos k lp slots hnp s₁ hs₁mem
      exact ⟨s, hsmem, le_trans hs₁ hsc⟩

/-! ### The beam-width-1 / greedy correspondence -/

theorem argmaxIdx_lt_length : ∀ (l : List ℚ), l ≠ [] → argmaxIdx l < l.length := by
  intro l
  induction l with
  | nil => intro h; exact absurd rfl h
  | cons x xs ih =>
    intro _
    rw [argmaxIdx]
    by_cases hxs : xs = []
    · rw [if_pos hxs]
      simp
    · rw [if_neg hxs]
      split
      · have := ih hxs
        simp only [List.length_cons]
        omega
      · simp

theorem greedyRun_finished {κ : Type} (oracle : Oracle κ) (vocab eos : Nat) :
    ∀ (n : Nat) (g : GreedyState κ), g.finished = true →
      greedyRun oracle vocab eos n g = g := by
  intro n
  induction n with
  | zero => intro g _; rfl
  | succ n ih =>
    intro g hg
    rw [greedyRun, greedyStep, if_pos hg]
    exact ih g hg

theorem best1_keyed {β : Type} (q : ℚ) (f : Nat → ℚ) (g : Nat → β) :
    ∀ (vs : List Nat), vs ≠ [] →
      ∃ rest, best1 (vs.map fun v => (((q + f v : ℚ) : WithBot ℚ), g v)) =
        some ((((q + f (vs.getD (argmaxIdx (vs.map f)) 0) : ℚ) : WithBot ℚ),
               g (vs.getD (argmaxIdx (vs.map f)) 0)), rest) := by
  intro vs
  induction vs with
  | nil => intro h; exact absurd rfl h
  | cons v vs ih =>
    intro _
    by_cases hvs : vs = []
    · subst hvs
      exact ⟨[], rfl⟩
    · obtain ⟨rest, hIH⟩ := ih hvs
      have hmapne : vs.map f ≠ [] := by
        intro hcon
        exact hvs (List.map_eq_nil_iff.mp hcon)
      have hJ : argmaxIdx (vs.map f) < vs.length := by
        have := argmaxIdx_lt_length (vs.map f) hmapne
        simpa using this
      have hgetf : (vs.map f).getD (argmaxIdx (vs.map f)) 0 =
          f (vs.getD (argmaxIdx (vs.map f)) 0) := by
        rw [List.getD_eq_getElem _ _ (by simpa using hJ), List.getElem_map,
            List.getD_eq_getElem _ _ hJ]
      have hunfold : best1 ((v :: vs).map fun u => (((q + f u : ℚ) : WithBot ℚ), g u)) =
          if (((q + f v : ℚ) : WithBot ℚ)) <
              (((q + f (vs.getD (argmaxIdx (vs.map f)) 0) : ℚ) : WithBot ℚ))
          then some ((((q + f (vs.getD (argmaxIdx (vs.map f)) 0) : ℚ) : WithBot ℚ),
                      g (vs.getD (argmaxIdx (vs.map f)) 0)),
                     (((q + f v : ℚ) : WithBot ℚ), g v) :: rest)
          else some ((((q + f v : ℚ) : WithBot ℚ), g v),
                     vs.map fun u => (((q + f u : ℚ) : WithBot ℚ), g u)) := by
        rw [List.map_cons, best1, hIH]
      have hcoe : ((((q + f v : ℚ) : WithBot ℚ)) <
            (((q + f (vs.getD (argmaxIdx (vs.map f)) 0) : ℚ) : WithBot ℚ))) ↔
          f v < f (vs.getD (argmaxIdx (vs.map f)) 0) := by
        rw [WithBot.coe_lt_coe]
        exact add_lt_add_iff_left q
      have hargmax : argmaxIdx ((v :: vs).map f) =
          if f v < (vs.map f).getD (argmaxIdx (vs.map f)) 0
          then argmaxIdx (vs.map f) + 1 else 0 := by
        rw [List.map_cons, argmaxIdx, if_neg hmapne]
      by_cases hcmp : f v < f (vs.getD (argmaxIdx (vs.map f)) 0)
      · refine ⟨(((q + f v : ℚ) : WithBot ℚ), g v) :: rest, ?_⟩
        rw [hunfold, if_pos (hcoe.mpr hcmp), hargmax,
            if_pos (by rw [hgetf]; exact hcmp), List.getD_cons_succ]
      · refine ⟨vs.map fun u => (((q + f u : ℚ) : WithBot ℚ), g u), ?_⟩
        rw [hunfold, if_neg (fun hcon => hcmp (hcoe.mp hcon)), hargmax,
            if_neg (by rw [hgetf]; exact hcmp), List.getD_cons_zero]

theorem stepBeams_one_live {κ : Type} (oracle : Oracle κ) (vocab eos : Nat)
    (lp : Nat → ℚ) (s : Slot κ) (q : ℚ) (hv : 1 ≤ vocab)
    (hfin : s.finished = false) (hsc : s.score = ((q : ℚ) : WithBot ℚ)) :
    stepBeams oracle vocab eos 1 lp [s] =
      [extendSlot oracle eos s (argmaxTok oracle vocab (lastTok s) s.cache)] := by
  have hrange : List.range vocab ≠ [] := by
    intro hcon
    have := congrArg List.length hcon
    simp at this
    omega
  have hmapeq : ((List.range vocab).map fun v =>
        (s.score + (((oracle (lastTok s) s.cache).1.getD v 0 : ℚ) : WithBot ℚ),
         extendSlot oracle eos s v)) =
      ((List.range vocab).map fun v =>
        (((q + (oracle (lastTok s) s.cache).1.getD v 0 : ℚ) : WithBot ℚ),
         extendSlot oracle eos s v)) := by
    refine List.map_congr_left ?_
    intro v _
    rw [hsc, ← WithBot.coe_add]
  obtain ⟨rest, hb⟩ := best1_keyed q
    (fun v => (oracle (lastTok s) s.cache).1.getD v 0)
    (fun v => extendSlot oracle eos s v) (List.range vocab) hrange
  have hcands : slotCands oracle vocab eos lp s =
      ((List.range vocab).map fun v =>
        (((q + (oracle (lastTok s) s.cache).1.getD v 0 : ℚ) : WithBot ℚ),
         extendSlot oracle eos s v)) := by
    rw [slotCands, if_neg (by simp [hfin]), hmapeq]
  have hchosen : (List.range vocab).getD
      (argmaxIdx ((List.range vocab).map fun v =>
        (oracle (lastTok s) s.cache).1.getD v 0)) 0 =
      argmaxTok oracle vocab (lastTok s) s.cache := by
    have hJ : argmaxIdx ((List.range vocab).map fun v =>
        (oracle (lastTok s) s.cache).1.getD v 0) < vocab := by
      have hne : ((List.range vocab).map fun v =>
          (oracle (lastTok s) s.cache).1.getD v 0) ≠ [] := by
        intro hcon
        exact hrange (List.map_eq_nil_iff.mp hcon)
      have := argmaxIdx_lt_length _ hne
      simpa using this
    rw [List.getD_eq_getElem _ _ (by simpa using hJ), List.getElem_range]
    rfl
  have htopone : ∀ (l : List (WithBot ℚ × Slot κ)) (x : WithBot ℚ × Slot κ)
      (rest : List (WithBot ℚ × Slot κ)), best1 l = some (x, rest) →
        topK 1 l = [x] := by
    intro l x rest h
    show topK (0 + 1) l = [x]
    rw [topK, h]
    rfl
  unfold stepBeams
  rw [List.flatMap_cons, List.flatMap_nil, List.append_nil, hcands,
      htopone _ _ _ hb]
  simp only [List.map_cons, List.map_nil]
  rw [hchosen]

theorem runBeams_one_greedy {κ : Type} (oracle : Oracle κ) (vocab eos : Nat)
    (lp : Nat → ℚ) (hv : 1 ≤ vocab) :
    ∀ (fuel : Nat) (s : Slot κ) (g : GreedyState κ) (q : ℚ),
      s.seq = g.seq → s.len = g.len → s.finished = g.finished →
      s.cache = g.cache → s.score = ((q : ℚ) : WithBot ℚ) →
      ∃ (s' : Slot κ) (q' : ℚ),
        runBeams oracle vocab eos 1 lp fuel [s] = [s'] ∧
        s'.seq = (greedyRun oracle vocab eos fuel g).seq ∧
        s'.len = (greedyRun oracle vocab eos fuel g).len ∧
        s'.finished = (greedyRun oracle vocab eos fuel g).finished ∧
        s'.cache = (greedyRun oracle vocab eos fuel g).cache ∧
        s'.score = ((q' : ℚ) : WithBot ℚ) := by
  intro fuel
  induction fuel with
  | zero =>
    intro s g q hseq hlen hfin hcache hsc
    exact ⟨s, q, rfl, hseq, hlen, hfin, hcache, hsc⟩
  | succ n ih =>
    intro s g q hseq hlen hfin hcache hsc
    by_cases hf : s.finished = true
    · have hgf : g.finished = true := hfin ▸ hf
      have hrb : runBeams oracle vocab eos 1 lp (n + 1) [s] = [s] := by
        rw [runBeams, if_pos (by simp [hf])]
      have hgr : greedyRun oracle vocab eos (n + 1) g = g := by
        rw [greedyRun, greedyStep, if_pos hgf]
        exact greedyRun_finished oracle vocab eos n g hgf
      rw [hrb, hgr]
      exact ⟨s, q, rfl, hseq, hlen, hfin, hcache, hsc⟩
    · have hf' : s.finished = false := by
        cases hsf : s.finished
        · rfl
        · exact absurd hsf hf
      have hgf : g.finished = false := hfin ▸ hf'
      have hrb : runBeams oracle vocab eos 1 lp (n + 1) [s] =
          runBeams oracle vocab eos 1 lp n
            [extendSlot oracle eos s (argmaxTok oracle vocab (lastTok s) s.cache)] := by
        rw [runBeams, if_neg (by simp [hf']),
            stepBeams_one_live oracle vocab eos lp s q hv hf' hsc]
      have hgr : greedyRun oracle vocab eos (n + 1) g =
          greedyRun oracle vocab eos n (greedyStep oracle vocab eos g) := by
        rw [greedyRun]
      have htok : lastTok s = g.seq.getD (g.len - 1) 0 := by
        rw [lastTok, hseq, hlen]
      have hstep : greedyStep oracle vocab eos g =
          { seq := g.seq.set g.len (argmaxTok oracle vocab (lastTok s) s.cache)
          , len := if (argmaxTok oracle vocab (lastTok s) s.cache) = eos
                   then g.len else g.len + 1
          , finished := ((argmaxTok oracle vocab (lastTok s) s.cache) == eos)
          , cache := (oracle (g.seq.getD (g.len - 1) 0) g.cache).2 } := by
        rw [greedyStep, if_neg (by simp [hgf]), htok, hcache]
      obtain ⟨s', q', hrun, h1, h2, h3, h4, h5⟩ := ih
        (extendSlot oracle eos s (argmaxTok oracle vocab (lastTok s) s.cache))
        (greedyStep oracle vocab eos g)
        (q + (oracle (lastTok s) s.cache).1.getD
          (argmaxTok oracle vocab (lastTok s) s.cache) 0)
        (by rw [extendSlot, hstep, hseq, hlen])
        (by rw [extendSlot, hstep, hlen])
        (by rw [extendSlot, hstep])
        (by rw [extendSlot, hstep, htok, hcache])
        (by rw [extendSlot]; dsimp only; rw [hsc, ← WithBot.coe_add])
      exact ⟨s', q', by rw [hrb, hrun], by rw [h1, hgr], by rw [h2, hgr],
             by rw [h3, hgr], by rw [h4, hgr], h5⟩

/-! ### Helper lemmas about `flat_batch_beam_expand` -/

theorem flat_batch_beam_expand_nil {α : Type} (k : Nat) :
    flat_batch_beam_expand ([] : List α) k = [] := rfl

theorem flat_batch_beam_expand_cons {α : Type} (x : α) (xs : List α) (k : Nat) :
    flat_batch_beam_expand (x :: xs) k =
      List.replicate k x ++ flat_batch_beam_expand xs k := rfl

theorem flat_batch_beam_expand_length {α : Type} (xs : List α) (k : Nat) :
    (flat_batch_beam_expand xs k).length = xs.length * k := by
  induction xs with
  | nil => simp [flat_batch_beam_expand]
  | cons x xs ih =>
    rw [flat_batch_beam_expand_cons]
    simp [ih, Nat.succ_mul, Nat.add_comm]

theorem flat_batch_beam_expand_getD {α : Type} (d : α) (k : Nat) :
    ∀ (xs : List α) (i j : Nat), i < xs.length → j < k →
      (flat_batch_beam_expand xs k).getD (i * k + j) d = xs.getD i d := by
  intro xs
  induction xs with
  | nil => intro i j hi _; simp at hi
  | cons x xs ih =>
    intro i j hi hj
    rw [flat_batch_beam_expand_cons]
    cases i with
    | zero =>
      have hlen : j < (List.replicate k x).length := by simpa using hj
      simp [List.getD_eq_getElem?_getD, List.getElem?_append, hlen,
            List.getElem?_replicate, hj]
    | succ i =>
      have harr : (List.replicate k x).length ≤ (i + 1) * k + j := by
        simp only [List.length_replicate]
        calc k ≤ (i + 1) * k := Nat.le_mul_of_pos_left k (Nat.succ_pos i)
        _ ≤ (i + 1) * k + j := Nat.le_add_right _ _
      rw [List.getD_eq_getElem?_getD, List.getElem?_append_right harr]
      have hidx : (i + 1) * k + j - (List.replicate k x).length = i * k + j := by
        simp only [List.length_replicate, Nat.succ_mul]
        omega
      rw [hidx, ← List.getD_eq_getElem?_getD]
      have := ih i j (Nat.lt_of_succ_lt_succ hi) hj
      simpa using this

/-- C1: the flat batch-beam expansion replicates each batch element
contiguously in place along the leading axis — the expanded list has
`batch * beamWidth` entries, entry `i * beamWidth + j` is source entry `i`
for every beam slot `j`, source order `[e0, e1, e2]` with beam width 2
yields `[e0, e0, e1, e1, e2, e2]`, and (for distinct elements) never the
tiled order `[e0, e1, e2, e0, e1, e2]`; as a Lean function it is total for
every (positive) beam width. -/
theorem flat_batch_beam_expand_spec {α : Type} (d : α) (k : Nat) (_hk : 0 < k)
    (xs : List α) :
    (flat_batch_beam_expand xs k).length = xs.length * k
    ∧ (∀ i j, i < xs.length → j < k →
        (flat_batch_beam_expand xs k).getD (i * k + j) d = xs.getD i d)
    ∧ (∀ e0 e1 e2 : α,
        flat_batch_beam_expand [e0, e1, e2] 2 = [e0, e0, e1, e1, e2, e2])
    ∧ (∀ e0 e1 e2 : α, e0 ≠ e1 →
        flat_batch_beam_expand [e0, e1, e2] 2 ≠ [e0, e1, e2, e0, e1, e2]) := by
  refine ⟨flat_batch_beam_expand_length xs k,
          fun i j hi hj => flat_batch_beam_expand_getD d k xs i j hi hj,
          fun e0 e1 e2 => rfl, fun e0 e1 e2 hne h => ?_⟩
  have h1 : e0 = e1 := by
    have := congrArg (fun l => l.getD 1 e0) h
    simpa [flat_batch_beam_expand] using this
  exact hne h1

/-- Witness for C1 at concrete inputs. -/
theorem flat_batch_beam_expand_spec_witness :
    (flat_batch_beam_expand [10, 20] 2).length = 2 * 2
    ∧ (flat_batch_beam_expand [10, 20] 2).getD (1 * 2 + 1) 0 = [10, 20].getD 1 0
    ∧ flat_batch_beam_expand [7, 8, 9] 2 = [7, 7, 8, 8, 9, 9]
    ∧ flat_batch_beam_expand [7, 8, 9] 2 ≠ [7, 8, 9, 7, 8, 9] := by
  have h := flat_batch_beam_expand_spec (α := Nat) 0 2 (by decide) [10, 20]
  exact ⟨h.1, h.2.1 1 1 (by decide) (by decide),
         (flat_batch_beam_expand_spec (α := Nat) 0 2 (by decide) [7, 8, 9]).2.2.1 7 8 9,
         (flat_batch_beam_expand_spec (α := Nat) 0 2 (by decide) [7, 8, 9]).2.2.2 7 8 9
           (by decide)⟩

/-! ### Claims about `pad_examples` and the prediction loop -/

/-- C4: for a 2-D batch with `0 < rows ≤ desired_batch_size`, `pad_examples`
returns exactly `desired_batch_size` rows, the first `rows` of which are the
original batch and the rest copies of its last row; and the caller discards
the padded outputs by iterating only over the first `cur_pred_batch_size`
predictions (rows beyond that bound never influence the produced strings). -/
theorem pad_examples_spec (x : List (List Int)) (d : Nat)
    (h0 : 0 < x.length) (hle : x.length ≤ d) :
    ∃ y, pad_examples x d = some y
      ∧ y.length = d
      ∧ y.take x.length = x
      ∧ (∀ row ∈ y.drop x.length, row = x.getLastD [])
      ∧ ∀ (dec : List Int → Except String String) (pred extra : List (List Int))
          (cur : Nat), pred.length = cur →
          process_predictions dec (pred ++ extra) cur =
            process_predictions dec pred cur := by
  have hne : x ≠ [] := List.length_pos.mp h0
  have hgl : x.getLast hne = x.getLastD [] := by
    rw [List.getLastD_eq_getLast?, List.getLast?_eq_getLast x hne]
    rfl
  refine ⟨x ++ List.replicate (d - x.length) (x.getLastD []), ?_, ?_, ?_, ?_, ?_⟩
  · simp [pad_examples, hne, hle, hgl]
  · simp [Nat.add_sub_cancel' hle]
  · exact List.take_left x _
  · intro row hrow
    rw [List.drop_left] at hrow
    exact List.eq_of_mem_replicate hrow
  · intro dec pred extra cur hcur
    unfold process_predictions
    rw [← hcur, List.take_left, List.take_length]

/-- Witness for C4 at concrete inputs. -/
theorem pad_examples_spec_witness :
    ∃ y, pad_examples [[1, 2]] 3 = some y
      ∧ y.length = 3
      ∧ y.take [[(1 : Int), 2]].length = [[1, 2]]
      ∧ (∀ row ∈ y.drop [[(1 : Int), 2]].length, row = [[(1 : Int), 2]].getLastD [])
      ∧ ∀ (dec : List Int → Except String String) (pred extra : List (List Int))
          (cur : Nat), pred.length = cur →
          process_predictions dec (pred ++ extra) cur =
            process_predictions dec pred cur :=
  pad_examples_spec [[1, 2]] 3 (by decide) (by decide)

/-- C5: the prediction loop substitutes the fixed placeholder string for any
hypothesis whose detokenization fails and keeps processing the rest of the
batch, so the number of produced prediction strings equals the number of
non-padding examples (`cur_pred_batch_size`). -/
theorem process_predictions_spec (dec : List Int → Except String String)
    (predicted : List (List Int)) (cur : Nat) (h : cur ≤ predicted.length) :
    (process_predictions dec predicted cur).length = cur
    ∧ ∀ i, i < cur →
        (process_predictions dec predicted cur).getD i ("") =
          match dec (predicted.getD i []) with
          | .ok t => t
          | .error _ => "Wir haben technische Schwierigkeiten." := by
  constructor
  · simp [process_predictions, Nat.min_eq_left h]
  · intro i hi
    have hip : i < predicted.length := Nat.lt_of_lt_of_le hi h
    unfold process_predictions
    rw [List.getD_eq_getElem?_getD, List.getElem?_map, List.getElem?_take_of_lt hi,
        List.getElem?_eq_getElem hip]
    simp [List.getD_eq_getElem?_getD, List.getElem?_eq_getElem hip]

/-- Witness for C5 at concrete inputs: the second hypothesis fails to decode
and is replaced by the placeholder; the batch keeps its two strings. -/
theorem process_predictions_spec_witness :
    (process_predictions
        (fun s => if s = [5] then Except.error ("bad") else Except.ok ("gut"))
        [[4], [5], [6]] 2).length = 2
    ∧ ∀ i, i < 2 →
        (process_predictions
            (fun s => if s = [5] then Except.error ("bad") else Except.ok ("gut"))
            [[4], [5], [6]] 2).getD i ("") =
          match (fun s => if s = [5] then Except.error ("bad") else Except.ok ("gut"))
              ([[4], [5], [6]].getD i ([] : List Int)) with
          | .ok t => t
          | .error _ => "Wir haben technische Schwierigkeiten." :=
  process_predictions_spec
    (fun s => if s = [5] then Except.error ("bad") else Except.ok ("gut"))
    [[4], [5], [6]] 2 (by decide)

/-- C10 counterexample: on an empty 2-D batch with `desired_batch_size = 0`
(row count already equal to the desired size) `pad_examples` does not return
its input — `x[-1]` raises an IndexError in numpy, modelled as `none`. -/
theorem pad_examples_empty_counterexample :
    pad_examples [] 0 ≠ some [] := by
  simp [pad_examples]

/-- C10 (amended): for every *nonempty* 2-D batch whose row count already
equals `desired_batch_size`, `pad_examples` returns the batch unchanged. -/
theorem pad_examples_identity (x : List (List Int)) (h : x ≠ []) :
    pad_examples x x.length = some x := by
  simp [pad_examples, h]

/-- Witness for C10's amended theorem at a concrete input. -/
theorem pad_examples_identity_witness :
    pad_examples [[3, 4], [5, 6]] 2 = some [[3, 4], [5, 6]] :=
  pad_examples_identity [[3, 4], [5, 6]] (by decide)

/-- C3: for all `batch_size ≥ 1` and `beam_width ≥ 1` (and a nonempty
vocabulary), the beam-search output has shape exactly
`[batch_size, beam_width, max_decode_len + 1]` — one beam list per batch
element, `beam_width` slots per beam list, every token buffer of length
`max_decode_len + 1` (the reserved start-token column plus `max_decode_len`
decode positions); consequently `predict_step`'s rows, after selecting the
last beam and dropping the first column, have length `max_decode_len`. -/
theorem beam_search_shape {σ κ : Type} (pow : Nat → ℚ → ℚ)
    (oracleFor : σ → Oracle κ) (cacheFor : σ → κ) (inputs : List σ)
    (vocab k : Nat) (alpha : ℚ) (eos m : Nat)
    (hv : 1 ≤ vocab) (_hk : 1 ≤ k) (_hb : 1 ≤ inputs.length) :
    (beam_search pow oracleFor cacheFor inputs vocab k alpha eos m).length =
      inputs.length
    ∧ (∀ beams ∈ beam_search pow oracleFor cacheFor inputs vocab k alpha eos m,
        beams.length = k ∧ ∀ s ∈ beams, s.seq.length = m + 1)
    ∧ ∀ (E : Type) (encode : List Int → E) (decoder : E → List Bool → Oracle κ)
        (cacheFor₂ : List Int → κ) (inputs₂ : List (List Int)),
        ∀ row ∈ predict_step pow encode decoder cacheFor₂ vocab m inputs₂,
          row.length = m := by
  refine ⟨by simp [beam_search], ?_, ?_⟩
  · intro beams hbeams
    rw [beam_search, List.mem_map] at hbeams
    obtain ⟨x, _, rfl⟩ := hbeams
    exact ⟨beamSearchOne_length _ _ _ _ _ _ _ hv,
           beamSearchOne_seq_length _ _ _ _ _ _ _⟩
  · intro E encode decoder cacheFor₂ inputs₂ row hrow
    simp only [predict_step, List.mem_map] at hrow
    obtain ⟨beams, hbeams, rfl⟩ := hrow
    rw [beam_search, List.mem_map] at hbeams
    obtain ⟨x, _, rfl⟩ := hbeams
    have hlen4 : (beamSearchOne (decoder (encode x) (x.map fun t => decide (0 < t)))
        (cacheFor₂ x) vocab 4 1 m (fun n => pow n (0.6 : ℚ))).length = 4 :=
      beamSearchOne_length _ _ _ _ _ _ _ hv
    have hne : beamSearchOne (decoder (encode x) (x.map fun t => decide (0 < t)))
        (cacheFor₂ x) vocab 4 1 m (fun n => pow n (0.6 : ℚ)) ≠ [] := by
      intro hcon
      rw [hcon] at hlen4
      simp at hlen4
    rw [List.getLast?_eq_getLast _ hne]
    have hsl := beamSearchOne_seq_length
      (decoder (encode x) (x.map fun t => decide (0 < t))) (cacheFor₂ x)
      vocab 4 1 m (fun n => pow n (0.6 : ℚ)) _ (List.getLast_mem hne)
    simp [hsl]

/-- Witness for C3 at concrete inputs. -/
theorem beam_search_shape_witness :
    (beam_search testPow (fun _ : Unit => testOracle) (fun _ => ()) [()] 3 2
        (1 : ℚ) 1 3).length = [()].length
    ∧ (∀ beams ∈ beam_search testPow (fun _ : Unit => testOracle) (fun _ => ())
          [()] 3 2 (1 : ℚ) 1 3,
        beams.length = 2 ∧ ∀ s ∈ beams, s.seq.length = 3 + 1)
    ∧ ∀ (E : Type) (encode : List Int → E)
        (decoder : E → List Bool → Oracle Unit) (cacheFor₂ : List Int → Unit)
        (inputs₂ : List (List Int)),
        ∀ row ∈ predict_step testPow encode decoder cacheFor₂ 3 3 inputs₂,
          row.length = 3 :=
  beam_search_shape testPow (fun _ : Unit => testOracle) (fun _ => ()) [()] 3 2
    (1 : ℚ) 1 3 (by decide) (by decide) (by decide)

/-- C2: the returned beam axis of every batch element is sorted ascending by
final length-normalized score (the mapped normalized scores are
non-decreasing along the beam axis, so the last beam holds the
highest-scoring hypothesis), and the caller `predict_step` takes exactly the
last beam per batch element and drops the leading reserved start-token
column. -/
theorem beam_search_sorted {σ κ : Type} (pow : Nat → ℚ → ℚ)
    (oracleFor : σ → Oracle κ) (cacheFor : σ → κ) (inputs : List σ)
    (vocab k : Nat) (alpha : ℚ) (eos m : Nat) :
    (∀ beams ∈ beam_search pow oracleFor cacheFor inputs vocab k alpha eos m,
        List.Sorted (· ≤ ·) (beams.map (normKey (fun n => pow n alpha)))
        ∧ ∀ s ∈ beams, ∀ b, beams.getLast? = some b →
            normKey (fun n => pow n alpha) s ≤ normKey (fun n => pow n alpha) b)
    ∧ ∀ (E : Type) (encode : List Int → E) (decoder : E → List Bool → Oracle κ)
        (cacheFor₂ : List Int → κ) (inputs₂ : List (List Int)),
        predict_step pow encode decoder cacheFor₂ vocab m inputs₂ =
          (beam_search pow
              (fun x => decoder (encode x) (x.map fun t => decide (0 < t)))
              cacheFor₂ inputs₂ vocab 4 (0.6 : ℚ) 1 m).map
            (fun beams => match beams.getLast? with
              | some s => s.seq.drop 1
              | none => []) := by
  constructor
  · intro beams hbeams
    rw [beam_search, List.mem_map] at hbeams
    obtain ⟨x, _, rfl⟩ := hbeams
    have hsorted := sorted_sortAsc (normKey (fun n => pow n alpha))
      (runBeams (oracleFor x) vocab eos k (fun n => pow n alpha) m
        (initSlots (cacheFor x) k m))
    exact ⟨List.pairwise_map.mpr hsorted,
           fun s hs b hb => sorted_key_le_getLast _ _ hsorted s hs b hb⟩
  · intro E encode decoder cacheFor₂ inputs₂
    rfl

/-- Witness for C2 at concrete inputs: the two-beam output of the test
oracle, whose normalized scores are `-4/3` then `-1`. -/
theorem beam_search_sorted_witness :
    List.Sorted (· ≤ ·)
      ((beamSearchOne testOracle () 3 2 1 3 (fun n => testPow n 1)).map
        (normKey (fun n => testPow n 1)))
    ∧ normKey (fun n => testPow n 1)
        ⟨[0, 2, 2, 1], 3, ((-4 : ℚ) : WithBot ℚ), true, ()⟩ ≤
      normKey (fun n => testPow n 1)
        ⟨[0, 2, 1, 0], 2, ((-2 : ℚ) : WithBot ℚ), true, ()⟩ := by
  have h := (beam_search_sorted testPow (fun _ : Unit => testOracle)
      (fun _ => ()) [()] 3 2 (1 : ℚ) 1 3).1
    (beamSearchOne testOracle () 3 2 1 3 (fun n => testPow n 1))
    (List.mem_singleton.mpr rfl)
  refine ⟨h.1, h.2 _ ?_ _ ?_⟩
  · exact of_decide_eq_true (by with_unfolding_all rfl)
  · exact of_decide_eq_true (by with_unfolding_all rfl)

/-- C6: `beam_width`, `alpha`, `eos_token` and `max_decode_len` are run
parameters supplied by the caller at each call; `predict_step` passes them
explicitly into beam search as `beam_size = 4` (a constant fixed inside
`predict_step`, not one of its parameters), `alpha = 0.6`, `eos_token = 1`,
`max_decode_len = max_predict_length`, and the per-element scoring function
receives the source padding mask `inputs > 0` (token id 0 is padding). -/
theorem predict_step_parameters {κ E : Type} (pow : Nat → ℚ → ℚ)
    (encode : List Int → E) (decoder : E → List Bool → Oracle κ)
    (cacheFor : List Int → κ) (vocab max_predict_length : Nat)
    (inputs : List (List Int)) :
    predict_step pow encode decoder cacheFor vocab max_predict_length inputs =
      (beam_search pow
          (fun x => decoder (encode x) (x.map fun t => decide (0 < t)))
          cacheFor inputs vocab 4 (0.6 : ℚ) 1 max_predict_length).map
        (fun beams => match beams.getLast? with
          | some s => s.seq.drop 1
          | none => []) := rfl

/-- C7: determinism — with a fixed, pure StepOracle and identical inputs and
run parameters, two beam-search runs produce identical output sequences and
scores. -/
theorem beam_search_deterministic {σ κ : Type}
    (pow₁ pow₂ : Nat → ℚ → ℚ) (oracleFor₁ oracleFor₂ : σ → Oracle κ)
    (cacheFor₁ cacheFor₂ : σ → κ) (inputs₁ inputs₂ : List σ)
    (vocab₁ vocab₂ k₁ k₂ : Nat) (alpha₁ alpha₂ : ℚ) (eos₁ eos₂ m₁ m₂ : Nat)
    (hpow : pow₁ = pow₂) (horacle : oracleFor₁ = oracleFor₂)
    (hcache : cacheFor₁ = cacheFor₂) (hinputs : inputs₁ = inputs₂)
    (hvocab : vocab₁ = vocab₂) (hk : k₁ = k₂) (halpha : alpha₁ = alpha₂)
    (heos : eos₁ = eos₂) (hm : m₁ = m₂) :
    beam_search pow₁ oracleFor₁ cacheFor₁ inputs₁ vocab₁ k₁ alpha₁ eos₁ m₁ =
      beam_search pow₂ oracleFor₂ cacheFor₂ inputs₂ vocab₂ k₂ alpha₂ eos₂ m₂ := by
  subst hpow horacle hcache hinputs hvocab hk halpha heos hm
  rfl

/-- Witness for C7 at concrete inputs. -/
theorem beam_search_deterministic_witness :
    beam_search testPow (fun _ : Unit => testOracle) (fun _ => ()) [()] 3 2
        (1 : ℚ) 1 3 =
      beam_search testPow (fun _ : Unit => testOracle) (fun _ => ()) [()] 3 2
        (1 : ℚ) 1 3 :=
  beam_search_deterministic testPow testPow (fun _ : Unit => testOracle)
    (fun _ : Unit => testOracle) (fun _ => ()) (fun _ => ()) [()] [()] 3 3 2 2
    (1 : ℚ) (1 : ℚ) 1 1 3 3 rfl rfl rfl rfl rfl rfl rfl rfl rfl

/-- C9: when every log-probability returned by the StepOracle is ≤ 0, scores
are monotonically non-increasing: every slot produced by one decode step
descends from a previous slot with a score at least as high and a sequence
length no longer, and every slot after any number of steps has a score no
higher than some slot of the starting state. -/
theorem beam_search_score_monotone {κ : Type} (oracle : Oracle κ)
    (vocab eos k : Nat) (lp : Nat → ℚ) (slots : List (Slot κ))
    (hnp : ∀ t c q, q ∈ (oracle t c).1 → q ≤ 0) :
    (∀ s' ∈ stepBeams oracle vocab eos k lp slots,
        ∃ s ∈ slots, s'.score ≤ s.score ∧ s.len ≤ s'.len)
    ∧ ∀ (fuel : Nat), ∀ s' ∈ runBeams oracle vocab eos k lp fuel slots,
        ∃ s ∈ slots, s'.score ≤ s.score :=
  ⟨stepBeams_score_le oracle vocab eos k lp slots hnp,
   fun fuel => runBeams_score_le oracle vocab eos k lp hnp fuel slots⟩

/-- Witness for C9 at concrete inputs. -/
theorem beam_search_score_monotone_witness :
    (∀ s' ∈ stepBeams testOracle 3 1 2 (fun n => (n : ℚ)) (initSlots () 2 3),
        ∃ s ∈ initSlots () 2 3, s'.score ≤ s.score ∧ s.len ≤ s'.len)
    ∧ ∀ (fuel : Nat),
        ∀ s' ∈ runBeams testOracle 3 1 2 (fun n => (n : ℚ)) fuel
            (initSlots () 2 3),
          ∃ s ∈ initSlots () 2 3, s'.score ≤ s.score := by
  refine beam_search_score_monotone testOracle 3 1 2 (fun n => (n : ℚ))
    (initSlots () 2 3) ?_
  intro t c q hq
  dsimp only [testOracle] at hq
  split at hq <;> simp only [List.mem_cons, List.not_mem_nil, or_false] at hq <;>
    rcases hq with rfl | rfl | rfl <;> norm_num

/-- C8: for `beam_width = 1` and any StepOracle, the beam-search decoder
produces the same output sequence as greedy argmax decoding under the same
oracle — top-1 selection at every step, with the same lowest-index
tie-break, no competition between hypotheses. -/
theorem beam_width_one_greedy {σ κ : Type} (pow : Nat → ℚ → ℚ)
    (oracleFor : σ → Oracle κ) (cacheFor : σ → κ) (inputs : List σ)
    (vocab : Nat) (alpha : ℚ) (eos m : Nat) (hv : 1 ≤ vocab) :
    (beam_search pow oracleFor cacheFor inputs vocab 1 alpha eos m).map
        (fun beams => beams.map (fun s => s.seq)) =
      inputs.map
        (fun x => [greedy_decode (oracleFor x) (cacheFor x) vocab eos m]) := by
  rw [beam_search, List.map_map]
  refine List.map_congr_left ?_
  intro x _
  show (beamSearchOne (oracleFor x) (cacheFor x) vocab 1 eos m
      (fun n => pow n alpha)).map (fun s => s.seq) =
    [greedy_decode (oracleFor x) (cacheFor x) vocab eos m]
  have hinit : initSlots (cacheFor x) 1 m =
      [⟨List.replicate (m + 1) 0, 1, ((0 : ℚ) : WithBot ℚ), false,
        cacheFor x⟩] := by
    have hr1 : List.range 1 = [0] := rfl
    simp [initSlots, hr1]
  obtain ⟨s', q', hrun, h1, _, _, _, _⟩ :=
    runBeams_one_greedy (oracleFor x) vocab eos (fun n => pow n alpha) hv m
      ⟨List.replicate (m + 1) 0, 1, ((0 : ℚ) : WithBot ℚ), false, cacheFor x⟩
      (greedyInit (cacheFor x) m) 0 rfl rfl rfl rfl rfl
  unfold beamSearchOne
  rw [hinit, hrun]
  simp [sortAsc, insertAsc, greedy_decode, h1]

/-- Witness for C8 at concrete inputs: the three-token test oracle. -/
theorem beam_width_one_greedy_witness :
    (beam_search testPow (fun _ : Unit => testOracle) (fun _ => ()) [()] 3 1
        (1 : ℚ) 1 3).map (fun beams => beams.map (fun s => s.seq)) =
      [()].map (fun _ => [greedy_decode testOracle () 3 1 3]) :=
  beam_width_one_greedy testPow (fun _ : Unit => testOracle) (fun _ => ()) [()]
    3 (1 : ℚ) 1 3 (by decide)

end WMT
